import Mathlib

/-!
# Verification of the Minutes Linking Engine (minutes_to_gh)

Shallow embedding of the core of the `minutes_to_gh` program:

* the Issue Reference parser (`Issue::try_from_url`, src/outcome.rs);
* the Fragment Resolver (`find_closest_hn_id`, `try_as_fragment_boundary`,
  src/engine.rs);
* the excerpt sanitizer (`extract_fragment`'s cleaning + `@word` wrapping,
  src/engine.rs);
* the Ownership Filter (`Repository::contains`, src/repositories.rs);
* the Duplicate Detector (`comment_to_link`, src/engine.rs);
* the engine orchestration (`Engine::run` and `issues_with_link`,
  src/engine.rs) over a model of the parsed HTML document;
* the configuration derivation (`Engine::new`, src/engine.rs).

Strings are modelled as `List Char` (`Str`), which keeps proofs about
concatenation and scanning elementary while remaining faithful to Rust's
`&str` operations used by the program (all the strings involved are
processed character-wise or by substring search).
-/

/-- Strings are modelled as lists of characters. -/
abbrev Str := List Char

namespace MinutesToGh

/-! ## Basic string operations (models of Rust `&str` methods) -/

/-- Model of Rust `str::starts_with` (`haystack.starts_with(needle)`). -/
def starts_with : Str → Str → Bool
  | _, [] => true
  | [], _ :: _ => false
  | c :: cs, d :: ds => c = d && starts_with cs ds

/-- Model of Rust `str::contains` with a string pattern:
substring containment (the empty pattern is contained in every string). -/
def str_contains : Str → Str → Bool
  | [], pat => starts_with [] pat
  | s@(_ :: rest), pat => starts_with s pat || str_contains rest pat

/-- First value bound to key `k` in an attribute list (model of
`scraper`'s `Element::attr`, which returns the value of the attribute,
present at most once in a parsed element). -/
def get_attr (attrs : List (Str × Str)) (k : Str) : Option Str :=
  (attrs.find? (fun p => decide (p.1 = k))).map (fun p => p.2)

/-! ## Issue Reference parser

`Issue::try_from_url` (src/outcome.rs lines 68–80, identical in
src/issue.rs) matches the candidate URL against the regex

  `//github.com/([^/]+)/([^/]+)/(issues|pull|#)/([0-9]+)$`

(the `.` of `github.com` is an unescaped regex metacharacter, matching any
character except a newline), and on a match builds an `Issue` from the
four capture groups, parsing group 4 with `str::parse::<u64>().unwrap()`.

Because the regex is anchored at the end of the haystack (Rust's `$`
without multi-line mode is the end of the haystack) and the four capture
groups are the last four `/`-delimited segments of the string — each of
`[^/]+`, `issues|pull|#` and `[0-9]+` is required to be immediately
preceded by a literal `/` and `[^/]+`/`[0-9]+` cannot extend over a `/` —
a match and its captures are uniquely determined by the suffix of the
string.  The parser is therefore embedded as a deterministic backward
scan of the string, which agrees with the regex engine's
leftmost-match semantics on every input.

`parse::<u64>().unwrap()` panics when the digit segment denotes a value
`≥ 2^64`; this is modelled by the `overflow` result. -/

/-- Parsed issue reference (`Issue`, src/outcome.rs lines 59–65). -/
structure Issue where
  url : Str
  owner : Str
  repo : Str
  id : Nat
deriving DecidableEq, Repr

/-- Result of `Issue::try_from_url`: a parsed reference, no match, or the
panic of `parse::<u64>().unwrap()` on a digit segment whose value does
not fit in 64 bits. -/
inductive ParseResult where
  | ok (i : Issue)
  | noMatch
  | overflow
deriving DecidableEq, Repr

/-- Numeric value denoted by a digit string (most significant digit
first), as computed by Rust's `str::parse` on `[0-9]+`. -/
def digits_val (d : Str) : Nat :=
  d.foldl (fun n c => n * 10 + (c.toNat - '0'.toNat)) 0

/-- Scan of `([0-9]+)` preceded by a literal `/`, on the reversed
remainder: the (reversed) nonempty digit run and the remainder past the
slash, or `none`. -/
def tail_digits (rev : Str) : Option (Str × Str) :=
  if rev.takeWhile Char.isDigit = [] then none
  else if (rev.dropWhile Char.isDigit).head? = some '/' then
    some (rev.takeWhile Char.isDigit, (rev.dropWhile Char.isDigit).tail)
  else none

/-- Scan of `([^/]+)` (or of the kind alternation) preceded by a literal
`/`, on the reversed remainder: the (reversed) nonempty slash-free
segment and the remainder past the slash, or `none`. -/
def tail_seg (rev : Str) : Option (Str × Str) :=
  if rev.takeWhile (fun c => !decide (c = '/')) = [] then none
  else if (rev.dropWhile (fun c => !decide (c = '/'))).head? = some '/' then
    some (rev.takeWhile (fun c => !decide (c = '/')),
      (rev.dropWhile (fun c => !decide (c = '/'))).tail)
  else none

/-- Reversed form of the literal `//github` of the regex. -/
def host_lit : Str := 'b' :: 'u' :: 'h' :: 't' :: 'i' :: 'g' :: '/' :: ['/']

/-- Scan of the literal `//github.com` on the reversed remainder (the
slash ending `github.com/` has already been consumed by the owner
segment scan): the character matched by the unescaped `.`, which may be
anything but a newline.  Whatever precedes the literal is ignored — the
regex is anchored at the end only. -/
def host_check : Str → Option Char
  | 'm' :: 'o' :: 'c' :: c :: rest =>
    if starts_with rest host_lit && !decide (c = '\n') then some c else none
  | _ => none

/-- Model of `Issue::try_from_url` (src/outcome.rs lines 68–80): backward
scan of the string implementing the end-anchored regex
`//github.com/([^/]+)/([^/]+)/(issues|pull|#)/([0-9]+)$`.
All scanning happens on the reversed character list: the digit run, the
kind segment, the repo segment, the owner segment, then the host
literal. -/
def try_from_url (s : Str) : ParseResult :=
  match tail_digits s.reverse with
  | none => .noMatch
  | some (drev, rest1) =>
    match tail_seg rest1 with
    | none => .noMatch
    | some (krev, rest2) =>
      if krev = "issues".toList.reverse ∨ krev = "pull".toList.reverse ∨
          krev = "#".toList.reverse then
        match tail_seg rest2 with
        | none => .noMatch
        | some (rrev, rest3) =>
          match tail_seg rest3 with
          | none => .noMatch
          | some (orev, rest4) =>
            match host_check rest4 with
            | none => .noMatch
            | some _ =>
              if digits_val drev.reverse < 2 ^ 64 then
                .ok ⟨s, orev.reverse, rrev.reverse, digits_val drev.reverse⟩
              else .overflow
      else .noMatch

/-- The literal `//github.com/` of the issue regex with its unescaped
dot made explicit: `c` is the character matched by the `.`
metacharacter. -/
def gh_lit (c : Char) : Str :=
  '/' :: '/' :: 'g' :: 'i' :: 't' :: 'h' :: 'u' :: 'b' :: c :: 'c' :: 'o'
    :: 'm' :: ['/']

/-- The pattern `<owner>/<repo>/(issues|pull|#)/<digits>` anchored at the
end of the string, exactly as the claim words it — *without* any
requirement on what precedes the owner segment.  Used only to compare
the claim with the behavior of the source parser. -/
def ends_with_claim_pattern (s : Str) : Bool :=
  match tail_digits s.reverse with
  | none => false
  | some (_, rest1) =>
    match tail_seg rest1 with
    | none => false
    | some (krev, rest2) =>
      (decide (krev = "issues".toList.reverse) ||
        decide (krev = "pull".toList.reverse) ||
        decide (krev = "#".toList.reverse)) &&
      (match tail_seg rest2 with
        | none => false
        | some (_, rest3) =>
          !(rest3.takeWhile (fun c => !decide (c = '/'))).isEmpty)

/-! ## Excerpt sanitizer

`extract_fragment` (src/engine.rs lines 271–287) sanitizes the serialized
fragment in two steps:

1. `ammonia::clean(&html)` — HTML cleaning by the external `ammonia`
   library;
2. `AT_WORD.replace_all(&content, "<code>$0</code>")` with
   `AT_WORD = @[A-Za-z0-9_]+` — every `@word` token is wrapped in an
   inline code span.

Step 2 is embedded faithfully below (`at_word_wrap`).  Step 1 is the
external library, modelled from the spec. -/

/-- Character class `[A-Za-z0-9_]` of the `AT_WORD` regex. -/
def is_word_char (c : Char) : Bool :=
  c.isAlpha || c.isDigit || c = '_'

mutual
/-- Model of `AT_WORD.replace_all(s, "<code>$0</code>")` with
`AT_WORD = @[A-Za-z0-9_]+` (src/engine.rs lines 272 and 285), outside a
match: the regex engine scans left to right; at each `@` followed by at
least one word character a match starts (matches are non-overlapping and
each consumes the maximal word-character run, `+` being greedy), the
replacement emits `<code>`, the matched text, then `</code>`; every
other character is copied unchanged. -/
def aw_out : Str → Str
  | [] => []
  | '@' :: rest =>
    match rest with
    | c :: _ =>
      if is_word_char c then "<code>@".toList ++ aw_in rest
      else '@' :: aw_out rest
    | [] => ['@']
  | c :: rest => c :: aw_out rest

/-- `AT_WORD.replace_all` inside a match (the maximal `[A-Za-z0-9_]+`
run): word characters are copied; the first non-word character closes
the span and is re-examined as a potential start of the next match. -/
def aw_in : Str → Str
  | [] => "</code>".toList
  | c :: rest =>
    if is_word_char c then c :: aw_in rest
    else
      match c, rest with
      | '@', c2 :: _ =>
        if is_word_char c2 then "</code><code>@".toList ++ aw_in rest
        else "</code>".toList ++ '@' :: aw_out rest
      | _, _ => "</code>".toList ++ c :: aw_out rest
end

/-- The `@word`-wrapping pass of the sanitizer. -/
def at_word_wrap (s : Str) : Str := aw_out s

/-- Tags kept by the HTML cleaner (part of `ammonia`'s default allowed
set; includes the inline tags relevant to meeting minutes). -/
def ammonia_allowed (t : Str) : Bool :=
  decide (t ∈ ["code", "i", "b", "em", "strong", "a", "p", "ul", "ol",
    "li", "hr", "details", "summary", "h1", "h2", "h3", "h4", "h5",
    "h6"].map String.toList)

/-- Characters allowed in a tag name in the cleaner model. -/
def is_tag_char (c : Char) : Bool := c.isAlpha || c.isDigit

/-- Drop characters until (and including) the first occurrence of `pat`. -/
def skip_past (pat : Str) : Str → Str
  | [] => []
  | s@(_ :: rest) =>
    if starts_with s pat then s.drop pat.length else skip_past pat rest

/-- Fuel-indexed HTML cleaning scan; see `ammonia_clean`. -/
def clean_aux : Nat → Str → Str
  | 0, _ => []
  | _ + 1, [] => []
  | fuel + 1, '<' :: rest =>
    if starts_with rest "/".toList then
      let name := (rest.drop 1).takeWhile is_tag_char
      let after := ((rest.drop 1).dropWhile (fun c => !decide (c = '>'))).drop 1
      if ammonia_allowed name then '<' :: '/' :: (name ++ '>' :: clean_aux fuel after)
      else clean_aux fuel after
    else if rest.takeWhile is_tag_char = [] then
      '&' :: 'l' :: 't' :: ';' :: clean_aux fuel rest
    else
      let name := rest.takeWhile is_tag_char
      let after := (rest.dropWhile (fun c => !decide (c = '>'))).drop 1
      if name = "script".toList then
        clean_aux fuel (skip_past "</script>".toList after)
      else if ammonia_allowed name then '<' :: (name ++ '>' :: clean_aux fuel after)
      else clean_aux fuel after
  | fuel + 1, c :: rest => c :: clean_aux fuel rest

/-- Modelled from the spec: the HTML cleaning step of the sanitizer (the
external `ammonia::clean` library call, src/engine.rs line 284), which is
not part of this repository.  Per the spec it strips "any non-content
markup (scripts, disallowed tags/attributes) while preserving inline
structure": `<script>` elements are removed together with their content,
tags outside the allowed set are stripped (keeping their text), allowed
tags and plain text are kept.  Faithful on entity-free input, which is
all the sanitizer claims exercise. -/
def ammonia_clean (s : Str) : Str :=
  clean_aux (s.length + 1) s

/-- The composed excerpt sanitizer of `extract_fragment`
(src/engine.rs lines 284–285): HTML cleaning, then `@word` wrapping. -/
def sanitize (s : Str) : Str :=
  at_word_wrap (ammonia_clean s)

/-! ## Ownership filter -/

/-- Owner of a repository (`Owner`, src/repositories.rs lines 40–43). -/
structure Owner where
  login : Str
deriving DecidableEq, Repr

/-- An owned repository (`Repository`, src/repositories.rs lines 9–14). -/
structure Repository where
  name : Str
  owner : Owner
deriving DecidableEq, Repr

/-- `Repository::contains` (src/repositories.rs lines 16–21):
`issue.owner == self.owner.login && issue.repo == self.name`. -/
def Repository.contains (r : Repository) (issue : Issue) : Bool :=
  decide (issue.owner = r.owner.login) && decide (issue.repo = r.name)

/-- The engine's ownership test (src/engine.rs line 119):
`self.repos.iter().any(|r| r.contains(&issue))`. -/
def owns (repos : List Repository) (issue : Issue) : Bool :=
  repos.any (fun r => r.contains issue)

/-! ## Duplicate detector -/

/-- A tracker comment as consumed by `comment_to_link`
(octocrab `models::issues::Comment`: optional body, comment URL,
creation timestamp). -/
structure GhComment where
  body : Option Str
  html_url : Str
  created_at : Int
deriving DecidableEq, Repr

/-- Modelled from the spec: the tracker's list-comments endpoint, which
is external to this repository.  `comment_to_link` (src/engine.rs lines
202–223) requests `list_comments(id).since(min_date).per_page(200)` and
reads a single page; per the spec the server returns the comments whose
creation time is at or after `since`, capped at the page size of 200. -/
def github_list_comments (all : List GhComment) (since : Int) : List GhComment :=
  (all.filter (fun c => decide (since ≤ c.created_at))).take 200

/-- The body test of `comment_to_link` (src/engine.rs lines 216–222):
`comment.body.as_ref().filter(|txt| txt.contains(url)).is_some()`. -/
def body_has (url : Str) (c : GhComment) : Bool :=
  (c.body.filter (fun txt => str_contains txt url)).isSome

/-- `comment_to_link`'s scan of the returned page (src/engine.rs lines
208–222): first comment, in server-returned order, whose body contains
the candidate link. -/
def comment_to_link (url : Str) (items : List GhComment) : Option GhComment :=
  items.find? (body_has url)

/-! ## Outcomes (src/outcome.rs) -/

/-- `OutcomeKind` (src/outcome.rs lines 12–24); the `Error` payload is
modelled as its message. -/
inductive OutcomeKind where
  | created (comment_url : Str)
  | faked
  | duplicate (comment_url : Str)
  | notOwned
  | error (msg : Str)
deriving DecidableEq, Repr

/-- `Outcome` (src/outcome.rs lines 6–9): a kind plus the originating
reference's source URL. -/
structure Outcome where
  kind : OutcomeKind
  issue : Str
deriving DecidableEq, Repr

/-! ## Engine orchestration (src/engine.rs `Engine::run`) -/

/-- Result of a tracker API call (success or transport/API failure). -/
inductive ApiResp (α : Type) where
  | ok (a : α)
  | err (msg : Str)
deriving DecidableEq, Repr

/-- The engine state relevant to `Engine::run`, with the tracker modelled
as response oracles: `listResp issue` is the page returned for
`list_comments(issue.id).since(min_date).per_page(200)` (already
`since`-filtered and capped server-side, see `github_list_comments`), and
`createResp issue message` the result of `create_comment`.  The rate
limiter (`governor.until_ready()`) only paces calls in time and is not
modelled. -/
structure EngineCfg where
  repos : List Repository
  template : Str
  transcript : Bool
  dryRun : Bool
  listResp : Issue → ApiResp (List GhComment)
  createResp : Issue → Str → ApiResp Str

/-- Model of Rust `str::replace("%URL%", link)` (src/engine.rs line 143):
replace every occurrence of the literal `%URL%`, left to right. -/
def replace_url : Str → Str → Str
  | [], _ => []
  | '%' :: 'U' :: 'R' :: 'L' :: '%' :: rest, link => link ++ replace_url rest link
  | c :: rest, link => c :: replace_url rest link

/-- Comment message composition (src/engine.rs lines 142–150): the
template with `%URL%` substituted, plus the collapsible transcript
section when transcripts are enabled. -/
def compose_message (cfg : EngineCfg) (link frag : Str) : Str :=
  let m := replace_url cfg.template link
  if cfg.transcript then
    m ++ "\n\n<details><summary><i>View the transcript</i></summary>\n\n".toList ++
      frag ++ "\n<hr /></details>".toList
  else m

/-- One iteration of the loop of `Engine::run` (src/engine.rs lines
115–169), producing the single outcome yielded for one discovered
reference `(issue, link, fragment)`: ownership check, duplicate check
(transport failure → `error`, match → `duplicate`), message composition,
dry-run short-circuit, comment creation. -/
def step_outcome (cfg : EngineCfg) (ref : Issue × Str × Str) : Outcome :=
  let issue := ref.1
  let link := ref.2.1
  let frag := ref.2.2
  if !owns cfg.repos issue then ⟨.notOwned, issue.url⟩
  else
    match cfg.listResp issue with
    | .err e => ⟨.error e, issue.url⟩
    | .ok items =>
      match comment_to_link link items with
      | some c => ⟨.duplicate c.html_url, issue.url⟩
      | none =>
        let message := compose_message cfg link frag
        if cfg.dryRun then ⟨.faked, issue.url⟩
        else
          match cfg.createResp issue message with
          | .err e => ⟨.error e, issue.url⟩
          | .ok curl => ⟨.created curl, issue.url⟩

/-- `Engine::run` over an already-extracted reference list: one outcome
per reference, in order (the `try_stream!` loop yields exactly once per
iteration). -/
def run_engine (cfg : EngineCfg) (refs : List (Issue × Str × Str)) : List Outcome :=
  refs.map (step_outcome cfg)

/-! ## Engine configuration derivation (src/engine.rs `Engine::new`) -/

/-- Decimal rendering of a natural number. -/
def nat_str (n : Nat) : Str := (toString n).toList

/-- Zero-padded two-digit rendering (Rust's `{:02}` on month/day). -/
def pad2 (n : Nat) : Str :=
  if n < 10 then '0' :: nat_str n else nat_str n

/-- Zero-padded four-digit rendering (chrono's `%Y`). -/
def pad4 (n : Nat) : Str :=
  if n < 10 then '0' :: '0' :: '0' :: nat_str n
  else if n < 100 then '0' :: '0' :: nat_str n
  else if n < 1000 then '0' :: nat_str n
  else nat_str n

/-- English month name (chrono's `%B`; months are numbered 1–12). -/
def month_name (m : Nat) : Str :=
  (["", "January", "February", "March", "April", "May", "June", "July",
    "August", "September", "October", "November",
    "December"].getD m "").toList

/-- chrono's `%d %B %Y` date format (src/engine.rs line 92). -/
def format_dmy (y m d : Nat) : Str :=
  pad2 d ++ ' ' :: (month_name m ++ ' ' :: pad4 y)

/-- Channel-name normalization of `Engine::new` (src/engine.rs lines
39–43): a leading `#` is stripped. -/
def channel_name : Str → Str
  | '#' :: rest => rest
  | s => s

/-- Default minutes URL (src/engine.rs lines 44–52), used when no
explicit URL is configured. -/
def minutes_url (channel : Str) (y m d : Nat) : Str :=
  "https://www.w3.org/".toList ++ nat_str y ++ '/' :: (pad2 m ++ '/' ::
    (pad2 d ++ '-' :: (channel_name channel ++ "-minutes.html".toList)))

/-- Default group identifier (src/engine.rs lines 69–70), used when no
explicit groups are configured. -/
def default_groups (channel : Str) : Str :=
  "wg/".toList ++ channel_name channel

/-- The comment message template (src/engine.rs lines 89–93), built from
the *raw* channel (`args.channel`) and the formatted date. -/
def message_template (channel : Str) (y m d : Nat) : Str :=
  "This was discussed during the [".toList ++ channel ++
    " meeting on ".toList ++ (format_dmy y m d ++ "](%URL%).".toList)

/-! ## The parsed document

`scraper::Html` parses the transcript into a tree of nodes; the engine
only inspects elements (name, attributes, children) and text nodes.
An element in context is modelled as a `Focus`: the element's own data
plus, for it and for each of its element ancestors, the list of preceding
sibling nodes in nearest-first order — exactly the data traversed by
`element_ancestors` and `element_prev_siblings` (src/engine.rs lines
300–310).  In a tree parsed by html5ever, element names and attribute
names are ASCII-lowercased; the models below operate on the parsed tree,
so names are compared as found in it. -/

/-- A node of the parsed HTML tree. -/
inductive DomNode where
  | elem (name : Str) (attrs : List (Str × Str)) (children : List DomNode)
  | text (s : Str)

/-- One element ancestor of a focused element: its data and its own
preceding siblings (nearest first). -/
structure Crumb where
  name : Str
  attrs : List (Str × Str)
  leftRev : List DomNode

/-- An element in its document context (a `scraper::ElementRef`):
its data, its preceding siblings (nearest first), and its element
ancestors (innermost first).  In a tree produced by `Html::parse_document`
every ancestor of an element up to the root is an element (the document
node itself is not an element and is skipped by `ElementRef::wrap`). -/
structure Focus where
  name : Str
  attrs : List (Str × Str)
  children : List DomNode
  leftRev : List DomNode
  ancestors : List Crumb

mutual
/-- Element foci of one node in document (pre-)order: the element itself
(if the node is one), then its descendants.  `anc` are the node's element
ancestors (innermost first), `leftRev` its preceding siblings (nearest
first). -/
def foci_node (anc : List Crumb) (leftRev : List DomNode) : DomNode → List Focus
  | .text _ => []
  | .elem nm attrs ch =>
    ⟨nm, attrs, ch, leftRev, anc⟩ ::
      foci_children (⟨nm, attrs, leftRev⟩ :: anc) [] ch

/-- Element foci of a sibling forest in document (pre-)order: each node's
foci before its following siblings' — the traversal order of
`Html::select`. -/
def foci_children (anc : List Crumb) (leftRev : List DomNode) :
    List DomNode → List Focus
  | [] => []
  | n :: rest => foci_node anc leftRev n ++ foci_children anc (n :: leftRev) rest
end

/-- All element foci of a document whose root element is `doc`. -/
def all_foci (doc : DomNode) : List Focus :=
  foci_node [] [] doc

/-! ## Fragment resolver (src/engine.rs lines 237–261) -/

/-- The `RE_HN = ^[hH][1234]$` test of `try_as_fragment_boundary`
(src/engine.rs line 254): the element name is `h` or `H` followed by one
digit `1`–`4`. -/
def is_hn (name : Str) : Bool :=
  match name with
  | [c1, c2] => (decide (c1 = 'h') || decide (c1 = 'H')) &&
      (decide ('1' ≤ c2) && decide (c2 ≤ '4'))
  | _ => false

/-- `try_as_fragment_boundary` (src/engine.rs lines 253–261) restricted
to the data it inspects: for an element with a recognized heading name,
the value of its `id` attribute (an *empty* value is accepted — the
source only tests attribute presence); otherwise `none`. -/
def boundary_id (name : Str) (attrs : List (Str × Str)) : Option Str :=
  if is_hn name then get_attr attrs "id".toList else none

/-- Element data of a node (`ElementRef::wrap`: `none` on text nodes). -/
def elem_data : DomNode → Option (Str × List (Str × Str))
  | .elem n a _ => some (n, a)
  | .text _ => none

/-- `element_prev_siblings` (src/engine.rs lines 308–310) applied to one
level of the ancestor chain: the element itself followed by its preceding
sibling elements, nearest first. -/
def level_chain (name : Str) (attrs : List (Str × Str))
    (leftRev : List DomNode) : List (Str × List (Str × Str)) :=
  (name, attrs) :: leftRev.filterMap elem_data

/-- `find_closest_hn_id` (src/engine.rs lines 237–249), transcript
disabled (the `content` flag only fills the excerpt, modelled separately
by `sanitize`): over `element_ancestors(e).flat_map(element_prev_siblings)`,
the first element that is a fragment boundary, yielding its `id`. -/
def find_closest_hn_id (f : Focus) : Option Str :=
  ((level_chain f.name f.attrs f.leftRev ++
      f.ancestors.flatMap (fun c => level_chain c.name c.attrs c.leftRev)).filterMap
    (fun p => boundary_id p.1 p.2)).head?

/-- First fragment boundary in one sibling chain (nearest first). -/
def first_boundary (g : Str → List (Str × Str) → Option Str) :
    List (Str × List (Str × Str)) → Option Str
  | [] => none
  | (n, a) :: rest =>
    match g n a with
    | some i => some i
    | none => first_boundary g rest

/-- Nested first-match search over the ancestor chain: current level's
sibling chain first, then the remaining ancestors, innermost first. -/
def resolve_levels (g : Str → List (Str × Str) → Option Str) :
    List (Str × List (Str × Str)) → List Crumb → Option Str
  | lvl, [] => first_boundary g lvl
  | lvl, c :: rest =>
    match first_boundary g lvl with
    | some i => some i
    | none => resolve_levels g (level_chain c.name c.attrs c.leftRev) rest

/-- The fragment-resolution search as the spec describes it, except that
(matching the source) a heading qualifies as soon as it *has* an `id`
attribute, empty or not: scan the anchor's ancestor chain innermost
first (including the anchor itself) and, for each ancestor, its
preceding siblings nearest first (including the ancestor itself); return
the first heading of level 1–4 carrying an `id` attribute. -/
def resolve_amended (f : Focus) : Option Str :=
  resolve_levels boundary_id (level_chain f.name f.attrs f.leftRev) f.ancestors

/-- The boundary test as the claim words it: a heading of level 1–4
whose `id` attribute is present *and non-empty*. -/
def boundary_id_per_claim (name : Str) (attrs : List (Str × Str)) : Option Str :=
  match boundary_id name attrs with
  | some i => if i = [] then none else some i
  | none => none

/-- The fragment-resolution search exactly as the claim describes it
(first heading of level 1–4 with a *non-empty* id, same traversal
order); kept only to compare with the source's behavior. -/
def resolve_per_claim (f : Focus) : Option Str :=
  resolve_levels boundary_id_per_claim
    (level_chain f.name f.attrs f.leftRev) f.ancestors

/-! ## Reference discovery (src/engine.rs `issues_with_link`) -/

/-- The CSS selector `h1[id] a, h2[id] a, …, h6[id] a` (src/engine.rs
lines 185–187): an `a` element having an ancestor heading of level 1–6
that carries an `id` attribute. -/
def is_h16 (n : Str) : Bool :=
  decide (n ∈ ["h1", "h2", "h3", "h4", "h5", "h6"].map String.toList)

/-- Whether a focus is matched by the engine's anchor selector. -/
def selected (f : Focus) : Bool :=
  decide (f.name = "a".toList) &&
    f.ancestors.any (fun c => is_h16 c.name && (get_attr c.attrs "id".toList).isSome)

/-- `dom.select(&SEL)` in document order. -/
def doc_anchors (doc : DomNode) : List Focus :=
  (all_foci doc).filter selected

/-- `a.attr("href")`. -/
def href_of (f : Focus) : Option Str :=
  get_attr f.attrs "href".toList

/-- One step of the `issues_with_link` pipeline (src/engine.rs lines
188–196) for a selected anchor: parse the `href` (anchors without `href`
or with a non-matching one are dropped), resolve the fragment (anchors
with no resolvable fragment are dropped), and attach the deep link
`url#fragment_id`; the fragment content is empty with transcripts
disabled (`DocFragment::dummy`). -/
def pipeline_f (url : Str) (f : Focus) : Option (Issue × Str × Str) :=
  match href_of f with
  | none => none
  | some h =>
    match try_from_url h with
    | .ok i => (find_closest_hn_id f).map (fun id => (i, url ++ '#' :: id, ([] : Str)))
    | _ => none

/-- The claim-level qualification of an anchor: its `href` parses as an
Issue Reference and a fragment resolves for it. -/
def qualifies (f : Focus) : Bool :=
  (match href_of f with
    | some h => match try_from_url h with | .ok _ => true | _ => false
    | none => false) &&
  (find_closest_hn_id f).isSome

/-- Whether some selected anchor's `href` makes
`parse::<u64>().unwrap()` panic; iterating `issues_with_link` in Rust
aborts on such a document. -/
def has_overflow (doc : DomNode) : Bool :=
  (doc_anchors doc).any (fun f =>
    match href_of f with
    | some h => decide (try_from_url h = .overflow)
    | none => false)

/-- `issues_with_link` (src/engine.rs lines 180–196), transcript
disabled: the references cited from identified headings, in document
order, each with its deep link.  `none` models the panic of the Rust
iterator on a document containing an overflowing issue number. -/
def issues_with_link (doc : DomNode) (url : Str) :
    Option (List (Issue × Str × Str)) :=
  if has_overflow doc then none
  else some ((doc_anchors doc).filterMap (pipeline_f url))

/-- The engine end to end on a document: discover references, then yield
one outcome per reference (`Engine::run`). -/
def engine_outcomes (cfg : EngineCfg) (doc : DomNode) (url : Str) :
    Option (List Outcome) :=
  (issues_with_link doc url).map (run_engine cfg)

/-! ## Concrete instances used by the theorems -/

/-- A transcript whose identified heading is followed by a paragraph
containing an anchor to a GitHub issue: the anchor is *not* inside any
heading, so the engine selector skips it, although its fragment
resolves. -/
def docEx1 : DomNode :=
  .elem "html".toList [] [.elem "body".toList [] [
    .elem "h2".toList [("id".toList, "x".toList)] [.text "Intro".toList],
    .elem "p".toList [] [.elem "a".toList
      [("href".toList, "https://github.com/acme/widgets/issues/42".toList)]
      [.text "issue".toList]]]]

/-- The unique anchor element of `docEx1`, in its document context. -/
def focusEx1 : Focus :=
  ⟨"a".toList,
   [("href".toList, "https://github.com/acme/widgets/issues/42".toList)],
   [.text "issue".toList], [],
   [⟨"p".toList, [],
     [.elem "h2".toList [("id".toList, "x".toList)] [.text "Intro".toList]]⟩,
    ⟨"body".toList, [], []⟩, ⟨"html".toList, [], []⟩]⟩

/-- The issue reference denoted by the anchor of `docEx1`. -/
def issueEx1 : Issue :=
  ⟨"https://github.com/acme/widgets/issues/42".toList,
   "acme".toList, "widgets".toList, 42⟩

/-- An engine state owning `acme/widgets`, with an empty comment history
and successful comment creation. -/
def cfgEx1 : EngineCfg :=
  ⟨[⟨"widgets".toList, ⟨"acme".toList⟩⟩],
   "This was discussed (%URL%).".toList, false, false,
   fun _ => .ok [], fun _ _ => .ok "https://github.com/c/1".toList⟩

/-- A transcript with a single anchor, placed inside the identified
heading itself. -/
def docW : DomNode :=
  .elem "html".toList [] [.elem "body".toList [] [
    .elem "h2".toList [("id".toList, "x".toList)] [
      .elem "a".toList
        [("href".toList, "https://github.com/acme/widgets/issues/5".toList)]
        [.text "t".toList]]]]

/-- The minutes URL used with `docW`. -/
def urlW : Str := "https://www.w3.org/2024/03/07-chan-minutes.html".toList

/-- The reference extracted from `docW`. -/
def issueW : Issue :=
  ⟨"https://github.com/acme/widgets/issues/5".toList,
   "acme".toList, "widgets".toList, 5⟩

/-- The reference list extracted from `docW`. -/
def refsW : List (Issue × Str × Str) :=
  [(issueW, urlW ++ '#' :: "x".toList, [])]

/-- An engine state with an *empty* repository list. -/
def cfgEmpty : EngineCfg :=
  ⟨[], "T %URL%.".toList, false, false,
   fun _ => .ok [], fun _ _ => .ok "cu".toList⟩

/-- An anchor whose nearest preceding heading has an *empty* `id`
attribute, while a farther one has `id="a"`. -/
def focusEx4 : Focus :=
  ⟨"a".toList, [], [], [],
   [⟨"p".toList, [],
     [.elem "h2".toList [("id".toList, [])] [],
      .elem "h2".toList [("id".toList, "a".toList)] []]⟩,
    ⟨"body".toList, [], []⟩, ⟨"html".toList, [], []⟩]⟩

/-- An anchor preceded by heading `id="a"` then heading `id="b"`
(nearest): the document of the nearest-wins example of the claim. -/
def focusNW : Focus :=
  ⟨"a".toList, [], [], [],
   [⟨"p".toList, [],
     [.elem "h2".toList [("id".toList, "b".toList)] [],
      .elem "h2".toList [("id".toList, "a".toList)] []]⟩,
    ⟨"body".toList, [], []⟩, ⟨"html".toList, [], []⟩]⟩

/-- A comment history for the duplicate-detector witness. -/
def commentsW5 : List GhComment :=
  [⟨some "unrelated".toList, "https://github.com/c/1".toList, 3⟩,
   ⟨some "see https://www.w3.org/2024/03/07-chan-minutes.html#item1".toList,
    "https://github.com/c/2".toList, 5⟩]

/-- The matching comment of `commentsW5`. -/
def cW5 : GhComment :=
  ⟨some "see https://www.w3.org/2024/03/07-chan-minutes.html#item1".toList,
   "https://github.com/c/2".toList, 5⟩

/-! ## Helper lemmas -/

theorem takeWhile_all_append (p : Char → Bool) (xs : Str) (y : Char) (ys : Str)
    (h1 : ∀ x ∈ xs, p x = true) (h2 : p y = false) :
    (xs ++ y :: ys).takeWhile p = xs := by
  induction xs with
  | nil => simp [List.takeWhile_cons, h2]
  | cons a as ih =>
    have ha : p a = true := h1 a (by simp)
    simp only [List.cons_append, List.takeWhile_cons, ha, if_true]
    rw [ih (fun x hx => h1 x (by simp [hx]))]

theorem dropWhile_all_append (p : Char → Bool) (xs : Str) (y : Char) (ys : Str)
    (h1 : ∀ x ∈ xs, p x = true) (h2 : p y = false) :
    (xs ++ y :: ys).dropWhile p = y :: ys := by
  induction xs with
  | nil => simp [List.dropWhile_cons, h2]
  | cons a as ih =>
    have ha : p a = true := h1 a (by simp)
    simp only [List.cons_append, List.dropWhile_cons, ha, if_true]
    exact ih (fun x hx => h1 x (by simp [hx]))

theorem head?_append_of_some {α : Type} {l l' : List α} {a : α}
    (h : l.head? = some a) : (l ++ l').head? = some a := by
  cases l <;> simp_all

theorem head?_append_of_none {α : Type} {l l' : List α}
    (h : l.head? = none) : (l ++ l').head? = l'.head? := by
  cases l <;> simp_all

theorem first_boundary_eq (g : Str → List (Str × Str) → Option Str)
    (lvl : List (Str × List (Str × Str))) :
    first_boundary g lvl = (lvl.filterMap (fun p => g p.1 p.2)).head? := by
  induction lvl with
  | nil => rfl
  | cons a rest ih =>
    obtain ⟨n, at_⟩ := a
    cases h : g n at_ <;>
      simp [first_boundary, h, List.filterMap_cons, ih]

theorem resolve_levels_eq (g : Str → List (Str × Str) → Option Str)
    (ancs : List Crumb) :
    ∀ lvl, ((lvl ++ ancs.flatMap
        (fun c => level_chain c.name c.attrs c.leftRev)).filterMap
      (fun p => g p.1 p.2)).head? = resolve_levels g lvl ancs := by
  induction ancs with
  | nil =>
    intro lvl
    simp [resolve_levels, first_boundary_eq]
  | cons c rest ih =>
    intro lvl
    rw [List.flatMap_cons, List.filterMap_append]
    cases h : first_boundary g lvl with
    | some i =>
      rw [first_boundary_eq] at h
      rw [head?_append_of_some h]
      simp [resolve_levels, ← first_boundary_eq, h,
        first_boundary_eq g lvl]
    | none =>
      have h2 : (lvl.filterMap (fun p => g p.1 p.2)).head? = none := by
        rw [← first_boundary_eq]; exact h
      rw [head?_append_of_none h2, ih]
      simp [resolve_levels, h]

theorem find?_eq_head?_dropWhile {α : Type} (p : α → Bool) (l : List α) :
    l.find? p = (l.dropWhile (fun a => !p a)).head? := by
  induction l with
  | nil => rfl
  | cons a rest ih =>
    cases h : p a <;> simp [List.find?_cons, List.dropWhile_cons, h, ih]

theorem tail_digits_eq (a b : Str) (ha : a ≠ [])
    (ha' : ∀ x ∈ a, x.isDigit = true) :
    tail_digits (a ++ '/' :: b) = some (a, b) := by
  unfold tail_digits
  rw [takeWhile_all_append _ _ _ _ ha' (by decide),
    dropWhile_all_append _ _ _ _ ha' (by decide)]
  simp [ha]

theorem tail_seg_eq (a b : Str) (ha : a ≠ [])
    (ha' : ∀ x ∈ a, ¬ x = '/') :
    tail_seg (a ++ '/' :: b) = some (a, b) := by
  have ha2 : ∀ x ∈ a, (!decide (x = '/')) = true := by
    intro x hx; simpa using ha' x hx
  unfold tail_seg
  rw [takeWhile_all_append _ _ _ _ ha2 (by decide),
    dropWhile_all_append _ _ _ _ ha2 (by decide)]
  simp [ha]

theorem starts_with_ex (l p : Str) (h : starts_with l p = true) :
    ∃ t, l = p ++ t := by
  induction p generalizing l with
  | nil => exact ⟨l, rfl⟩
  | cons a as ih =>
    cases l with
    | nil => exact absurd h (by simp [starts_with])
    | cons b bs =>
      rw [starts_with, Bool.and_eq_true, decide_eq_true_eq] at h
      obtain ⟨rfl, h2⟩ := h
      obtain ⟨t, rfl⟩ := ih bs h2
      exact ⟨t, rfl⟩

theorem tail_digits_inv (rev a b : Str) (h : tail_digits rev = some (a, b)) :
    rev = a ++ '/' :: b ∧ a ≠ [] ∧ ∀ x ∈ a, x.isDigit = true := by
  unfold tail_digits at h
  by_cases h0 : rev.takeWhile Char.isDigit = []
  · rw [if_pos h0] at h; exact absurd h (by simp)
  · rw [if_neg h0] at h
    by_cases h1 : (rev.dropWhile Char.isDigit).head? = some '/'
    · rw [if_pos h1] at h
      rw [Option.some.injEq, Prod.mk.injEq] at h
      obtain ⟨ha1, hb1⟩ := h
      have hdrop : rev.dropWhile Char.isDigit = '/' :: b := by
        cases hd2 : rev.dropWhile Char.isDigit with
        | nil => rw [hd2] at h1; exact absurd h1 (by simp)
        | cons c0 rest =>
          rw [hd2] at h1 hb1
          simp only [List.head?_cons, Option.some.injEq] at h1
          simp only [List.tail_cons] at hb1
          rw [h1, hb1]
      subst ha1
      refine ⟨?_, h0, fun x hx => List.mem_takeWhile_imp hx⟩
      conv_lhs => rw [← List.takeWhile_append_dropWhile
        (p := Char.isDigit) (l := rev)]
      rw [hdrop]
    · rw [if_neg h1] at h; exact absurd h (by simp)

theorem tail_seg_inv (rev a b : Str) (h : tail_seg rev = some (a, b)) :
    rev = a ++ '/' :: b ∧ a ≠ [] ∧ ∀ x ∈ a, ¬ x = '/' := by
  unfold tail_seg at h
  by_cases h0 : rev.takeWhile (fun c => !decide (c = '/')) = []
  · rw [if_pos h0] at h; exact absurd h (by simp)
  · rw [if_neg h0] at h
    by_cases h1 : (rev.dropWhile (fun c => !decide (c = '/'))).head? = some '/'
    · rw [if_pos h1] at h
      rw [Option.some.injEq, Prod.mk.injEq] at h
      obtain ⟨ha1, hb1⟩ := h
      have hdrop : rev.dropWhile (fun c => !decide (c = '/')) = '/' :: b := by
        cases hd2 : rev.dropWhile (fun c => !decide (c = '/')) with
        | nil => rw [hd2] at h1; exact absurd h1 (by simp)
        | cons c0 rest =>
          rw [hd2] at h1 hb1
          simp only [List.head?_cons, Option.some.injEq] at h1
          simp only [List.tail_cons] at hb1
          rw [h1, hb1]
      subst ha1
      refine ⟨?_, h0, fun x hx => by simpa using List.mem_takeWhile_imp hx⟩
      conv_lhs => rw [← List.takeWhile_append_dropWhile
        (p := fun c => !decide (c = '/')) (l := rev)]
      rw [hdrop]
    · rw [if_neg h1] at h; exact absurd h (by simp)

theorem host_check_inv (rev : Str) (c : Char) (h : host_check rev = some c) :
    ¬ c = '\n' ∧ ∃ tail, rev = 'm' :: 'o' :: 'c' :: c :: 'b' :: 'u' :: 'h'
      :: 't' :: 'i' :: 'g' :: '/' :: '/' :: tail := by
  unfold host_check at h
  split at h
  · rename_i c0 rest
    split at h
    · rename_i hcond
      rw [Bool.and_eq_true, Bool.not_eq_true', decide_eq_false_iff_not] at hcond
      rw [Option.some.injEq] at h
      subst h
      obtain ⟨t, ht⟩ := starts_with_ex rest host_lit hcond.1
      exact ⟨hcond.2, t, by rw [ht]; rfl⟩
    · exact absurd h (by simp)
  · exact absurd h (by simp)

theorem reverse_concat_form (pre : Str) (c : Char) (o r k d : Str) :
    (pre ++ gh_lit c ++ (o ++ '/' :: (r ++ '/' :: (k ++ '/' :: d)))).reverse =
      d.reverse ++ '/' :: (k.reverse ++ '/' :: (r.reverse ++ '/' ::
        (o.reverse ++ '/' :: 'm' :: 'o' :: 'c' :: c :: 'b' :: 'u' :: 'h'
          :: 't' :: 'i' :: 'g' :: '/' :: '/' :: pre.reverse))) := by
  simp [gh_lit, List.reverse_append]

theorem try_from_url_constructed (pre : Str) (c : Char) (o r k d : Str)
    (ho : o ≠ []) (ho' : ∀ x ∈ o, ¬ x = '/')
    (hr : r ≠ []) (hr' : ∀ x ∈ r, ¬ x = '/')
    (hk : k = "issues".toList ∨ k = "pull".toList ∨ k = "#".toList)
    (hd : d ≠ []) (hd' : ∀ x ∈ d, x.isDigit = true)
    (hc : ¬ c = '\n') :
    try_from_url (pre ++ gh_lit c ++ (o ++ '/' :: (r ++ '/' :: (k ++ '/' :: d)))) =
      if digits_val d < 2 ^ 64 then
        .ok ⟨pre ++ gh_lit c ++ (o ++ '/' :: (r ++ '/' :: (k ++ '/' :: d))),
          o, r, digits_val d⟩
      else .overflow := by
  have hdr : d.reverse ≠ [] := by simpa using hd
  have hdr' : ∀ x ∈ d.reverse, x.isDigit = true := fun x hx =>
    hd' x (List.mem_reverse.mp hx)
  have hkr' : ∀ x ∈ k.reverse, ¬ x = '/' := by
    rcases hk with hk | hk | hk <;> subst hk <;> decide
  have hkr : k.reverse ≠ [] := by
    rcases hk with hk | hk | hk <;> subst hk <;> decide
  have hrr : r.reverse ≠ [] := by simpa using hr
  have hrr' : ∀ x ∈ r.reverse, ¬ x = '/' := fun x hx =>
    hr' x (List.mem_reverse.mp hx)
  have hor : o.reverse ≠ [] := by simpa using ho
  have hor' : ∀ x ∈ o.reverse, ¬ x = '/' := fun x hx =>
    ho' x (List.mem_reverse.mp hx)
  have h1 := tail_digits_eq d.reverse (k.reverse ++ '/' :: (r.reverse ++ '/'
    :: (o.reverse ++ '/' :: 'm' :: 'o' :: 'c' :: c :: 'b' :: 'u' :: 'h' :: 't'
      :: 'i' :: 'g' :: '/' :: '/' :: pre.reverse))) hdr hdr'
  have h2 := tail_seg_eq k.reverse (r.reverse ++ '/' :: (o.reverse ++ '/'
    :: 'm' :: 'o' :: 'c' :: c :: 'b' :: 'u' :: 'h' :: 't' :: 'i' :: 'g' :: '/'
      :: '/' :: pre.reverse)) hkr hkr'
  have h3 := tail_seg_eq r.reverse (o.reverse ++ '/' :: 'm' :: 'o' :: 'c' :: c
    :: 'b' :: 'u' :: 'h' :: 't' :: 'i' :: 'g' :: '/' :: '/' :: pre.reverse)
    hrr hrr'
  have h4 := tail_seg_eq o.reverse ('m' :: 'o' :: 'c' :: c :: 'b' :: 'u' :: 'h'
    :: 't' :: 'i' :: 'g' :: '/' :: '/' :: pre.reverse) hor hor'
  have h5 : host_check ('m' :: 'o' :: 'c' :: c :: 'b' :: 'u' :: 'h' :: 't'
      :: 'i' :: 'g' :: '/' :: '/' :: pre.reverse) = some c := by
    have hsw : starts_with ('b' :: 'u' :: 'h' :: 't' :: 'i' :: 'g' :: '/' ::
        '/' :: pre.reverse) host_lit = true := by
      simp [starts_with, host_lit]
    unfold host_check
    simp [hsw, hc]
  have hkcond : k.reverse = "issues".toList.reverse ∨
      k.reverse = "pull".toList.reverse ∨ k.reverse = "#".toList.reverse := by
    rcases hk with hk | hk | hk <;> subst hk <;> simp
  unfold try_from_url
  rw [reverse_concat_form]
  simp only [h1, h2, h3, h4, h5, if_pos hkcond, List.reverse_reverse]

theorem try_from_url_ok_decomp (s : Str) (i : Issue)
    (h : try_from_url s = .ok i) :
    ∃ pre c o r k d,
      s = pre ++ gh_lit c ++ (o ++ '/' :: (r ++ '/' :: (k ++ '/' :: d))) ∧
      o ≠ [] ∧ (∀ x ∈ o, ¬ x = '/') ∧ r ≠ [] ∧ (∀ x ∈ r, ¬ x = '/') ∧
      (k = "issues".toList ∨ k = "pull".toList ∨ k = "#".toList) ∧
      d ≠ [] ∧ (∀ x ∈ d, x.isDigit = true) ∧ ¬ c = '\n' ∧
      digits_val d < 2 ^ 64 ∧ i = ⟨s, o, r, digits_val d⟩ := by
  unfold try_from_url at h
  split at h
  · exact absurd h (by simp)
  · rename_i drev rest1 h1
    split at h
    · exact absurd h (by simp)
    · rename_i krev rest2 h2
      split at h
      · rename_i hkrev
        split at h
        · exact absurd h (by simp)
        · rename_i rrev rest3 h3
          split at h
          · exact absurd h (by simp)
          · rename_i orev rest4 h4
            split at h
            · exact absurd h (by simp)
            · rename_i c h5
              split at h
              · rename_i hlt
                injection h with h'
                obtain ⟨e1, h1n, h1d⟩ := tail_digits_inv _ _ _ h1
                obtain ⟨e2, h2n, h2s⟩ := tail_seg_inv _ _ _ h2
                obtain ⟨e3, h3n, h3s⟩ := tail_seg_inv _ _ _ h3
                obtain ⟨e4, h4n, h4s⟩ := tail_seg_inv _ _ _ h4
                obtain ⟨hc, tail, e5⟩ := host_check_inv _ _ h5
                refine ⟨tail.reverse, c, orev.reverse, rrev.reverse,
                  krev.reverse, drev.reverse, ?_, by simpa using h4n,
                  (fun x hx => h4s x (List.mem_reverse.mp hx)),
                  by simpa using h3n,
                  (fun x hx => h3s x (List.mem_reverse.mp hx)), ?_,
                  by simpa using h1n,
                  (fun x hx => h1d x (List.mem_reverse.mp hx)), hc, hlt,
                  h'.symm⟩
                · have hsrev : s.reverse = drev ++ '/' :: (krev ++ '/' ::
                      (rrev ++ '/' :: (orev ++ '/' :: 'm' :: 'o' :: 'c' :: c
                        :: 'b' :: 'u' :: 'h' :: 't' :: 'i' :: 'g' :: '/'
                        :: '/' :: tail))) := by
                    rw [e1, e2, e3, e4, e5]
                  have := reverse_concat_form tail.reverse c orev.reverse
                    rrev.reverse krev.reverse drev.reverse
                  simp only [List.reverse_reverse] at this
                  have h6 : s.reverse = (tail.reverse ++ gh_lit c ++
                      (orev.reverse ++ '/' :: (rrev.reverse ++ '/' ::
                        (krev.reverse ++ '/' :: drev.reverse)))).reverse := by
                    rw [this]; exact hsrev
                  have h7 := congrArg List.reverse h6
                  simpa using h7
                · rcases hkrev with hk | hk | hk
                  · exact Or.inl (by rw [hk]; simp)
                  · exact Or.inr (Or.inl (by rw [hk]; simp))
                  · exact Or.inr (Or.inr (by rw [hk]; simp))
              · exact absurd h (by simp)
      · exact absurd h (by simp)

theorem try_from_url_ok_url (s : Str) (i : Issue)
    (h : try_from_url s = .ok i) : i.url = s := by
  obtain ⟨_, _, _, _, _, _, _, _, _, _, _, _, _, _, _, _, hi⟩ :=
    try_from_url_ok_decomp s i h
  rw [hi]

theorem step_outcome_issue (cfg : EngineCfg) (ref : Issue × Str × Str) :
    (step_outcome cfg ref).issue = ref.1.url := by
  simp only [step_outcome]
  repeat first | rfl | split

theorem run_engine_issues (cfg : EngineCfg) (refs : List (Issue × Str × Str)) :
    (run_engine cfg refs).map (fun oc => oc.issue) =
      refs.map (fun t => t.1.url) := by
  unfold run_engine
  rw [List.map_map]
  exact List.map_congr_left (fun ref _ => step_outcome_issue cfg ref)

theorem pipeline_isSome (url : Str) (f : Focus) :
    (pipeline_f url f).isSome = qualifies f := by
  cases hh : href_of f with
  | none => simp [pipeline_f, qualifies, hh]
  | some h =>
    simp only [pipeline_f, qualifies, hh]
    cases hres : try_from_url h with
    | ok i => cases find_closest_hn_id f <;> simp
    | noMatch => simp
    | overflow => simp

theorem length_filterMap_pipeline (url : Str) (l : List Focus) :
    (l.filterMap (pipeline_f url)).length = (l.filter qualifies).length := by
  induction l with
  | nil => rfl
  | cons f rest ih =>
    rw [List.filterMap_cons, List.filter_cons]
    cases hp : pipeline_f url f with
    | none =>
      have hq : qualifies f = false := by rw [← pipeline_isSome, hp]; rfl
      simp [hq, ih]
    | some v =>
      have hq : qualifies f = true := by rw [← pipeline_isSome, hp]; rfl
      simp [hq, ih]

theorem sublist_filterMap_url (url : Str) (l : List Focus) :
    ((l.filterMap (pipeline_f url)).map (fun t => t.1.url)).Sublist
      (l.filterMap href_of) := by
  induction l with
  | nil => simp
  | cons f rest ih =>
    cases hh : href_of f with
    | none =>
      have hp : pipeline_f url f = none := by unfold pipeline_f; rw [hh]
      simp only [List.filterMap_cons, hp, hh]
      exact ih
    | some hrefs =>
      simp only [List.filterMap_cons, hh]
      cases hp : pipeline_f url f with
      | none => exact ih.cons hrefs
      | some v =>
        obtain ⟨v1, v2, v3⟩ := v
        have hv : v1.url = hrefs := by
          unfold pipeline_f at hp
          simp only [hh] at hp
          cases hres : try_from_url hrefs with
          | ok i =>
            rw [hres] at hp
            cases hfind : find_closest_hn_id f with
            | none => rw [hfind] at hp; simp at hp
            | some id0 =>
              rw [hfind] at hp
              simp only [Option.map_some', Option.some.injEq,
                Prod.mk.injEq] at hp
              rw [← hp.1]
              exact try_from_url_ok_url _ _ hres
          | noMatch => rw [hres] at hp; simp at hp
          | overflow => rw [hres] at hp; simp at hp
        simp only [List.map_cons, hv]
        exact ih.cons₂ hrefs

/-! ## Claims -/

/-- C1, counterexample: the outcome-per-anchor property does *not* hold
for anchors "anywhere in the parsed transcript document": the engine
selector `h1[id] a, …, h6[id] a` only picks anchors nested inside an
identified heading.  In `docEx1` the unique anchor sits in a paragraph
after the identified heading: its href parses as an issue reference and
its fragment resolves (to `x`), yet the engine emits *zero* outcomes for
the document instead of exactly one. -/
theorem c1_counterexample :
    (all_foci docEx1).filter (fun f => decide (f.name = "a".toList)) =
      [focusEx1] ∧
    href_of focusEx1 =
      some "https://github.com/acme/widgets/issues/42".toList ∧
    try_from_url "https://github.com/acme/widgets/issues/42".toList =
      .ok issueEx1 ∧
    find_closest_hn_id focusEx1 = some "x".toList ∧
    engine_outcomes cfgEx1 docEx1
      "https://www.w3.org/2024/03/07-chan-minutes.html".toList = some [] :=
  ⟨rfl, by decide, by decide, by decide, by decide⟩

/-- C1, amended: for every anchor *selected by the engine — an anchor
nested inside a heading of level 1–6 bearing an id attribute —* whose
href parses as an Issue Reference and for which a fragment resolves, the
engine emits exactly one outcome; selected anchors whose href does not
parse (or whose fragment does not resolve), and anchors outside
identified headings, are skipped silently with no outcome; the emitted
outcomes correspond one to one, in document order, to the qualifying
anchors, and their reference urls form a document-ordered subsequence of
the hrefs of the selected anchors. -/
theorem c1_amended (doc : DomNode) (url : Str) (cfg : EngineCfg)
    (refs : List (Issue × Str × Str))
    (h : issues_with_link doc url = some refs) :
    (run_engine cfg refs).map (fun oc => oc.issue) =
      refs.map (fun t => t.1.url) ∧
    refs.length = ((doc_anchors doc).filter qualifies).length ∧
    (refs.map (fun t => t.1.url)).Sublist
      ((doc_anchors doc).filterMap href_of) := by
  have hrefs : refs = (doc_anchors doc).filterMap (pipeline_f url) := by
    unfold issues_with_link at h
    by_cases hov : has_overflow doc
    · rw [if_pos hov] at h; exact absurd h (by simp)
    · rw [if_neg hov] at h
      injection h with h2
      exact h2.symm
  subst hrefs
  exact ⟨run_engine_issues cfg _, length_filterMap_pipeline url _,
    sublist_filterMap_url url _⟩

/-- C1, witness for the amended theorem on a concrete document with one
qualifying anchor. -/
theorem c1_amended_witness :
    (run_engine cfgEx1 refsW).map (fun oc => oc.issue) =
      refsW.map (fun t => t.1.url) ∧
    refsW.length = ((doc_anchors docW).filter qualifies).length ∧
    (refsW.map (fun t => t.1.url)).Sublist
      ((doc_anchors docW).filterMap href_of) :=
  c1_amended docW urlW cfgEx1 refsW (by decide)

/-- C4, counterexample: the claim requires fragment resolution to return
the first heading with a *non-empty* id, but the source only tests the
presence of the `id` attribute.  For the anchor `focusEx4`, whose nearest
preceding heading is `<h2 id="">` and the next one `<h2 id="a">`, the
code resolves to the empty id, not to `a` as the claim describes. -/
theorem c4_counterexample :
    find_closest_hn_id focusEx4 = some [] ∧
    resolve_per_claim focusEx4 = some "a".toList ∧
    ¬ (some ([] : Str) = some "a".toList) :=
  ⟨by decide, by decide, by decide⟩

/-- C4, amended: fragment resolution returns the first heading of level
1 through 4 *having an id attribute (possibly empty)*, scanning the
ancestor chain of the anchor innermost first (the anchor included) and,
for each ancestor, its preceding siblings nearest first (the ancestor
included), and returns nothing when no such heading exists; in
particular, for heading id=a, then heading id=b, then the anchor, the
anchor resolves to b (nearest wins).  Resolution is a pure function, so
resolving twice trivially yields the same id. -/
theorem c4_amended :
    (∀ f : Focus, find_closest_hn_id f = resolve_amended f) ∧
    find_closest_hn_id focusNW = some "b".toList := by
  refine ⟨?_, by decide⟩
  intro f
  unfold find_closest_hn_id resolve_amended
  exact resolve_levels_eq boundary_id f.ancestors
    (level_chain f.name f.attrs f.leftRev)

/-- C10: when the configured channel begins with `#`, engine
construction strips the leading `#` when deriving the default minutes
URL and the default group identifier `wg/<channel>`, but substitutes the
channel verbatim (leading `#` included) into the comment message
template. -/
theorem c10_channel_hash (rest : Str) (y m d : Nat) :
    channel_name ('#' :: rest) = rest ∧
    minutes_url ('#' :: rest) y m d =
      "https://www.w3.org/".toList ++ nat_str y ++ '/' :: (pad2 m ++ '/' ::
        (pad2 d ++ '-' :: (rest ++ "-minutes.html".toList))) ∧
    default_groups ('#' :: rest) = "wg/".toList ++ rest ∧
    message_template ('#' :: rest) y m d =
      "This was discussed during the [#".toList ++ rest ++
        " meeting on ".toList ++ (format_dmy y m d ++ "](%URL%).".toList) :=
  ⟨rfl, rfl, rfl, rfl⟩

/-- C3, counterexample: with an *empty* repository list the engine does
not treat every reference as owned — on the contrary, the ownership test
is false and every reference is reported `NotOwned`, contradicting the
second half of the claim. -/
theorem c3_counterexample :
    cfgEmpty.repos = [] ∧
    owns cfgEmpty.repos issueW = false ∧
    run_engine cfgEmpty refsW = [⟨.notOwned, issueW.url⟩] :=
  ⟨by decide, by decide, by decide⟩

/-- C3, amended: `owns(reference, repositories)` is true iff the list
contains an entry whose `(owner_login, name)` equals the
`(owner, repo)` of the reference under exact case-sensitive comparison;
consequently, with an *empty* repository list the predicate is false for
every reference and every reference is reported `NotOwned`. -/
theorem c3_amended :
    (∀ (repos : List Repository) (issue : Issue),
      owns repos issue = true ↔
        ∃ rep ∈ repos, issue.owner = rep.owner.login ∧ issue.repo = rep.name) ∧
    (∀ (cfg : EngineCfg) (ref : Issue × Str × Str), cfg.repos = [] →
      step_outcome cfg ref = ⟨.notOwned, ref.1.url⟩) := by
  constructor
  · intro repos issue
    simp [owns, Repository.contains, List.any_eq_true, Bool.and_eq_true,
      decide_eq_true_eq]
  · intro cfg ref h
    simp [step_outcome, owns, h]

/-- C3, witness for the amended theorem at a concrete input. -/
theorem c3_amended_witness :
    step_outcome cfgEmpty (issueW, urlW, []) = ⟨.notOwned, issueW.url⟩ :=
  c3_amended.2 cfgEmpty (issueW, urlW, []) rfl

/-- C5: the duplicate detector only considers comments created at or
after the cutoff, capped at 200 results from a single page, and returns
the first comment in server-returned order whose body contains the
candidate link verbatim — or nothing when no listed comment contains
it. -/
theorem c5_duplicate_detector (all : List GhComment) (since : Int) (url : Str) :
    (∀ c ∈ github_list_comments all since, since ≤ c.created_at) ∧
    (github_list_comments all since).length ≤ 200 ∧
    (comment_to_link url (github_list_comments all since) = none ↔
      ∀ c ∈ github_list_comments all since, body_has url c = false) ∧
    (∀ c, comment_to_link url (github_list_comments all since) = some c →
      c ∈ github_list_comments all since ∧ body_has url c = true) ∧
    comment_to_link url (github_list_comments all since) =
      ((github_list_comments all since).dropWhile
        (fun c => !body_has url c)).head? := by
  refine ⟨?_, ?_, ?_, ?_, ?_⟩
  · intro c hc
    unfold github_list_comments at hc
    have h1 := List.mem_of_mem_take hc
    exact of_decide_eq_true (List.mem_filter.mp h1).2
  · exact List.length_take_le ..
  · constructor
    · intro h c hc
      have := List.find?_eq_none.mp h c hc
      simpa using this
    · intro h
      exact List.find?_eq_none.mpr (fun c hc => by simp [h c hc])
  · intro c h
    exact ⟨List.mem_of_find?_eq_some h, List.find?_some h⟩
  · exact find?_eq_head?_dropWhile _ _

/-- C5, witness: on a concrete comment page the detector returns the
comment containing the exact candidate link. -/
theorem c5_witness :
    cW5 ∈ github_list_comments commentsW5 0 ∧
    body_has "https://www.w3.org/2024/03/07-chan-minutes.html#item1".toList
      cW5 = true :=
  (c5_duplicate_detector commentsW5 0
    "https://www.w3.org/2024/03/07-chan-minutes.html#item1".toList).2.2.2.1
    cW5 (by decide)

/-- C2, counterexample: the sanitizer is *not* idempotent.  Sanitizing
`@alice` yields `<code>@alice</code>`, but sanitizing that output wraps
the mention a second time, yielding
`<code><code>@alice</code></code>`. -/
theorem c2_counterexample :
    sanitize "@alice".toList = "<code>@alice</code>".toList ∧
    sanitize (sanitize "@alice".toList) =
      "<code><code>@alice</code></code>".toList ∧
    ¬ sanitize (sanitize "@alice".toList) = sanitize "@alice".toList :=
  ⟨by decide, by decide, by decide⟩

/-- C6, counterexample: the pattern the claim quantifies over —
`<owner>/<repo>/(issues|pull|#)/<digits>` anchored at the end of the
string — omits the `//github.com/` literal that the source regex
requires right before the owner segment.  The string
`http://example.org/acme/widgets/issues/42` ends with
`acme/widgets/issues/42`, so the claim says it parses to
`{acme, widgets, 42}`, but the parser returns nothing. -/
theorem c6_counterexample :
    ends_with_claim_pattern
      "http://example.org/acme/widgets/issues/42".toList = true ∧
    try_from_url "http://example.org/acme/widgets/issues/42".toList =
      .noMatch :=
  ⟨by decide, by decide⟩

/-- C6, amended: the parser returns a reference exactly for the strings
of the form `<anything>//github<c>com/<owner>/<repo>/(issues|pull|#)/<digits>`
— where `<c>` is any single non-newline character, the unescaped regex
dot — whose digit segment denotes a value below `2^64` (larger values
hit the `parse::<u64>().unwrap()` panic of C7); owner, repo and id are
then exactly the matched segments, and the whole input is kept as the
source url. -/
theorem c6_amended (s : Str) (i : Issue) :
    try_from_url s = .ok i ↔
      ∃ pre c o r k d,
        s = pre ++ gh_lit c ++ (o ++ '/' :: (r ++ '/' :: (k ++ '/' :: d))) ∧
        o ≠ [] ∧ (∀ x ∈ o, ¬ x = '/') ∧ r ≠ [] ∧ (∀ x ∈ r, ¬ x = '/') ∧
        (k = "issues".toList ∨ k = "pull".toList ∨ k = "#".toList) ∧
        d ≠ [] ∧ (∀ x ∈ d, x.isDigit = true) ∧ ¬ c = '\n' ∧
        digits_val d < 2 ^ 64 ∧ i = ⟨s, o, r, digits_val d⟩ := by
  constructor
  · exact try_from_url_ok_decomp s i
  · rintro ⟨pre, c, o, r, k, d, rfl, ho, ho', hr, hr', hk, hd, hd', hc,
      hlt, rfl⟩
    rw [try_from_url_constructed pre c o r k d ho ho' hr hr' hk hd hd' hc,
      if_pos hlt]

/-- C6, witness for the amended theorem: the example of the claim,
`https://github.com/acme/widgets/pull/7`, parses to
`{acme, widgets, 7}`. -/
theorem c6_amended_witness :
    try_from_url "https://github.com/acme/widgets/pull/7".toList =
      .ok ⟨"https://github.com/acme/widgets/pull/7".toList, "acme".toList,
        "widgets".toList, 7⟩ :=
  (c6_amended _ _).mpr ⟨"https:".toList, '.', "acme".toList, "widgets".toList,
    "pull".toList, "7".toList, by decide, by decide, by decide, by decide,
    by decide, by decide, by decide, by decide, by decide, by decide,
    by decide⟩

/-- C7: the claim — and the spec contract it comes from — says the
parser never fails for any input, including arbitrarily large digit
segments; the source instead calls `parse::<u64>().unwrap()` on the
matched digits, which panics as soon as their value exceeds 64 bits.
On `//github.com/a/b/issues/99999999999999999999` the regex matches and
the unwrap aborts; the model returns the `overflow` marker there. -/
theorem c7_parse_overflow :
    try_from_url "//github.com/a/b/issues/99999999999999999999".toList =
      .overflow ∧
    2 ^ 64 ≤ digits_val "99999999999999999999".toList :=
  ⟨by decide, by decide⟩

/-- C8, counterexample: the id of a parsed reference is *not* always
strictly positive: the trailing digit segment `0` is accepted by
`[0-9]+` and parses to the id `0`. -/
theorem c8_counterexample :
    try_from_url "https://github.com/a/b/issues/0".toList =
      .ok ⟨"https://github.com/a/b/issues/0".toList, "a".toList,
        "b".toList, 0⟩ ∧
    ¬ 0 < 0 :=
  ⟨by decide, by decide⟩

/-- C8, amended: every successfully parsed reference keeps the input as
its source url, has non-empty owner and repo, and its id is the
(possibly zero) value of the trailing digit segment of the input, which
fits in 64 bits. -/
theorem c8_amended (s : Str) (i : Issue) (h : try_from_url s = .ok i) :
    i.url = s ∧ i.owner ≠ [] ∧ i.repo ≠ [] ∧ i.id < 2 ^ 64 ∧
      ∃ t d, s = t ++ '/' :: d ∧ d ≠ [] ∧ (∀ x ∈ d, x.isDigit = true) ∧
        i.id = digits_val d := by
  obtain ⟨pre, c, o, r, k, d, hs, ho, ho', hr, hr', hk, hd, hd', hc, hlt, hi⟩ :=
    try_from_url_ok_decomp s i h
  subst hi
  refine ⟨rfl, ho, hr, hlt,
    pre ++ gh_lit c ++ (o ++ '/' :: (r ++ '/' :: k)), d, ?_, hd, hd', rfl⟩
  rw [hs]
  simp [List.append_assoc]

/-- C8, witness for the amended theorem at a concrete parsed
reference. -/
theorem c8_amended_witness :
    issueW.url = "https://github.com/acme/widgets/issues/5".toList ∧
    issueW.owner ≠ [] ∧ issueW.repo ≠ [] ∧ issueW.id < 2 ^ 64 ∧
    ∃ t d, "https://github.com/acme/widgets/issues/5".toList =
        t ++ '/' :: d ∧ d ≠ [] ∧ (∀ x ∈ d, x.isDigit = true) ∧
      issueW.id = digits_val d :=
  c8_amended "https://github.com/acme/widgets/issues/5".toList issueW
    (by decide)

/-- C9, counterexample: a string whose suffix matches
`//github.com/<owner>/<repo>/issues/<digits>` is *not* always accepted:
with the 20-digit id `99999999999999999999` the regex matches but the
parser aborts in `parse::<u64>().unwrap()` (modelled as `overflow`)
instead of returning a reference. -/
theorem c9_counterexample :
    "//github.com/a/b/issues/99999999999999999999".toList =
      [] ++ gh_lit '.' ++ ("a".toList ++ '/' :: ("b".toList ++ '/' ::
        ("issues".toList ++ '/' :: "99999999999999999999".toList))) ∧
    try_from_url "//github.com/a/b/issues/99999999999999999999".toList =
      .overflow :=
  ⟨by decide, by decide⟩

/-- C9, amended: every string whose suffix matches
`//github.com/<owner>/<repo>/(issues|pull|#)/<digits>` and whose digit
segment value fits in 64 bits is accepted as an Issue Reference with
exactly those segments, regardless of what precedes that suffix
(protocol-relative URLs, arbitrary schemes, other hosts embedding the
suffix). -/
theorem c9_amended (pre o r k d : Str)
    (ho : o ≠ []) (ho' : ∀ x ∈ o, ¬ x = '/')
    (hr : r ≠ []) (hr' : ∀ x ∈ r, ¬ x = '/')
    (hk : k = "issues".toList ∨ k = "pull".toList ∨ k = "#".toList)
    (hd : d ≠ []) (hd' : ∀ x ∈ d, x.isDigit = true)
    (hlt : digits_val d < 2 ^ 64) :
    try_from_url
        (pre ++ gh_lit '.' ++ (o ++ '/' :: (r ++ '/' :: (k ++ '/' :: d)))) =
      .ok ⟨pre ++ gh_lit '.' ++ (o ++ '/' :: (r ++ '/' :: (k ++ '/' :: d))),
        o, r, digits_val d⟩ := by
  rw [try_from_url_constructed pre '.' o r k d ho ho' hr hr' hk hd hd'
    (by decide), if_pos hlt]

/-- C9, witness: a URL of another host merely embedding the
`//github.com/acme/widgets/pull/7` suffix is accepted. -/
theorem c9_amended_witness :
    try_from_url ("https://evil.example/?u=".toList ++ gh_lit '.' ++
        ("acme".toList ++ '/' :: ("widgets".toList ++ '/' ::
          ("pull".toList ++ '/' :: "7".toList)))) =
      .ok ⟨"https://evil.example/?u=".toList ++ gh_lit '.' ++
          ("acme".toList ++ '/' :: ("widgets".toList ++ '/' ::
            ("pull".toList ++ '/' :: "7".toList))),
        "acme".toList, "widgets".toList, digits_val "7".toList⟩ :=
  c9_amended "https://evil.example/?u=".toList "acme".toList
    "widgets".toList "pull".toList "7".toList (by decide) (by decide)
    (by decide) (by decide) (by decide) (by decide) (by decide) (by decide)

/-- C2, amended: one application of the sanitizer to a body containing
`@alice` yields the body with `<code>@alice</code>` verbatim exactly
once; the sanitizer is not idempotent — a second application wraps the
mention in an additional code span. -/
theorem c2_amended :
    sanitize "hello @alice!".toList = "hello <code>@alice</code>!".toList ∧
    str_contains (sanitize "hello @alice!".toList)
      "<code>@alice</code>".toList = true ∧
    sanitize (sanitize "hello @alice!".toList) =
      "hello <code><code>@alice</code></code>!".toList :=
  ⟨by decide, by decide, by decide⟩

end MinutesToGh
